import Mathlib

/-!
Verification development for the `curves` library core:
`polynomial.h` (polynomial curve evaluation/derivation) and
`linear_variable.h` (affine variable algebra), shallowly embedded over ℚ
(exact scalars standing for the C++ `double` arithmetic).

Vectors (`Eigen::Matrix<N, Dynamic, 1>`) are `List ℚ`; the polynomial
coefficient matrix (`Eigen::MatrixXd`, one column per degree) is a
`List (List ℚ)` of its columns; an Eigen dense matrix used by
`linear_variable` is a `List (List ℚ)` of its rows.

Eigen aborts (via `eigen_assert`) on dimension-mismatched arithmetic;
those operations are modelled as `Option`/`Except` failures with the
`eigenAssert` error kind.  C++ exceptions are modelled with the error
taxonomy of the specification: the range-check `std::invalid_argument`
thrown by evaluation is `outOfRange`, the empty-coefficients
`std::runtime_error` is `invalidState`, constructor dimension checks and
`Tmin > Tmax` (`std::invalid_argument`) are `invalidArgument`, and the
coefficients/degree mismatch `std::runtime_error` of `safe_check` is
`runtimeError`.
-/

namespace CurvesModel

/-- Abstract error kinds, one per distinct throwing/asserting site of the
source (names follow the specification's error taxonomy). -/
inductive Err where
  | invalidArgument
  | outOfRange
  | invalidState
  | runtimeError
  | eigenAssert
  deriving DecidableEq, Repr

instance {ε α : Type} [DecidableEq ε] [DecidableEq α] :
    DecidableEq (Except ε α) := fun a b =>
  match a, b with
  | .ok x, .ok y =>
    if h : x = y then isTrue (by rw [h])
    else isFalse (by intro hc; cases hc; exact h rfl)
  | .error x, .error y =>
    if h : x = y then isTrue (by rw [h])
    else isFalse (by intro hc; cases hc; exact h rfl)
  | .ok _, .error _ => isFalse (by intro hc; cases hc)
  | .error _, .ok _ => isFalse (by intro hc; cases hc)

/-! ### Componentwise vector arithmetic (well-dimensioned uses only) -/

/-- Vector addition, `u + v` (Eigen componentwise sum; all uses inside
`polynomial` are on same-length columns of one matrix). -/
def vadd (u v : List ℚ) : List ℚ := List.zipWith (· + ·) u v

/-- Vector subtraction `u - v`. -/
def vsub (u v : List ℚ) : List ℚ := List.zipWith (· - ·) u v

/-- Scalar times vector, `a * v`. -/
def smul (a : ℚ) (v : List ℚ) : List ℚ := v.map (a * ·)

/-- Vector divided by a scalar, `v / a`. -/
def vdivS (v : List ℚ) (a : ℚ) : List ℚ := v.map (· / a)

/-- `point_t::Zero(n)`. -/
def zeroVec (n : ℕ) : List ℚ := List.replicate n 0

/-- Entry `j` of a vector (0 beyond its length; all dimension-relevant
uses are below the length). -/
def entry (v : List ℚ) (j : ℕ) : ℚ := v.getD j 0

/-- Column `i` of a coefficient matrix stored as a list of columns. -/
def getCol (cols : List (List ℚ)) (i : ℕ) : List ℚ := cols.getD i []

/-- `Eigen::MatrixXd::size()` (number of scalar entries) of a
list-of-columns matrix. -/
def csize (cols : List (List ℚ)) : ℕ := (cols.map List.length).sum

/-- The row count of a (rectangular) list-of-columns matrix,
`coefficients.rows()`. -/
def matRows (cols : List (List ℚ)) : ℕ := (getCol cols 0).length

theorem entry_nil (j : ℕ) : entry [] j = 0 := by cases j <;> rfl

theorem entry_cons_zero (a : ℚ) (v : List ℚ) : entry (a :: v) 0 = a := rfl

theorem entry_cons_succ (a : ℚ) (v : List ℚ) (j : ℕ) :
    entry (a :: v) (j + 1) = entry v j := rfl

theorem length_vadd (u v : List ℚ) : (vadd u v).length = min u.length v.length :=
  List.length_zipWith ..

theorem length_vsub (u v : List ℚ) : (vsub u v).length = min u.length v.length :=
  List.length_zipWith ..

theorem length_smul (a : ℚ) (v : List ℚ) : (smul a v).length = v.length :=
  List.length_map ..

theorem length_vdivS (v : List ℚ) (a : ℚ) : (vdivS v a).length = v.length :=
  List.length_map ..

theorem length_zeroVec (n : ℕ) : (zeroVec n).length = n := List.length_replicate ..

theorem entry_vadd (u v : List ℚ) (h : u.length = v.length) (j : ℕ) :
    entry (vadd u v) j = entry u j + entry v j := by
  induction u generalizing v j with
  | nil =>
    cases v with
    | nil => simp [vadd, entry_nil]
    | cons b v => simp at h
  | cons a u ih =>
    cases v with
    | nil => simp at h
    | cons b v =>
      cases j with
      | zero => simp [vadd, entry_cons_zero]
      | succ j =>
        simp only [vadd, List.zipWith_cons_cons, entry_cons_succ]
        exact ih v (by simpa using h) j

theorem entry_smul (a : ℚ) (v : List ℚ) (j : ℕ) :
    entry (smul a v) j = a * entry v j := by
  induction v generalizing j with
  | nil => simp [smul, entry_nil]
  | cons b v ih =>
    cases j with
    | zero => simp [smul, entry_cons_zero]
    | succ j => simpa [smul, entry_cons_succ] using ih j

theorem entry_zeroVec (n j : ℕ) : entry (zeroVec n) j = 0 := by
  induction n generalizing j with
  | zero => simp [zeroVec, entry_nil]
  | succ n ih =>
    cases j with
    | zero => simp [zeroVec, List.replicate_succ, entry_cons_zero]
    | succ j => simpa [zeroVec, List.replicate_succ, entry_cons_succ] using ih j

/-- Two vectors with equal lengths and equal entries are equal. -/
theorem entry_vsub (u v : List ℚ) (h : u.length = v.length) (j : ℕ) :
    entry (vsub u v) j = entry u j - entry v j := by
  induction u generalizing v j with
  | nil =>
    cases v with
    | nil => simp [vsub, entry_nil]
    | cons b v => simp at h
  | cons a u ih =>
    cases v with
    | nil => simp at h
    | cons b v =>
      cases j with
      | zero => simp [vsub, entry_cons_zero]
      | succ j =>
        simp only [vsub, List.zipWith_cons_cons, entry_cons_succ]
        exact ih v (by simpa using h) j

theorem entry_vdivS (v : List ℚ) (a : ℚ) (j : ℕ) :
    entry (vdivS v a) j = entry v j / a := by
  induction v generalizing j with
  | nil => simp [vdivS, entry_nil]
  | cons b v ih =>
    cases j with
    | zero => simp [vdivS, entry_cons_zero]
    | succ j => simpa [vdivS, entry_cons_succ] using ih j

theorem list_eq_of_entry (u v : List ℚ) (hl : u.length = v.length)
    (he : ∀ j, entry u j = entry v j) : u = v := by
  induction u generalizing v with
  | nil => cases v with
    | nil => rfl
    | cons b v => simp at hl
  | cons a u ih =>
    cases v with
    | nil => simp at hl
    | cons b v =>
      have h0 := he 0
      simp only [entry_cons_zero] at h0
      subst h0
      have := ih v (by simpa using hl) (fun j => by simpa [entry_cons_succ] using he (j + 1))
      rw [this]

theorem getCol_length {cols : List (List ℚ)} {dim : ℕ}
    (hc : ∀ c ∈ cols, c.length = dim) {i : ℕ} (hi : i < cols.length) :
    (getCol cols i).length = dim := by
  have : cols.getD i [] = cols.get ⟨i, hi⟩ := by
    simp [List.getD_eq_getElem?_getD, List.getElem?_eq_getElem hi]
  rw [getCol, this]
  exact hc _ (List.get_mem cols _ _)

theorem csize_eq {cols : List (List ℚ)} {dim : ℕ}
    (hc : ∀ c ∈ cols, c.length = dim) : csize cols = cols.length * dim := by
  induction cols with
  | nil => simp [csize]
  | cons c cols ih =>
    have hcd := hc c (by simp)
    have : ∀ x ∈ cols, x.length = dim := fun x hx => hc x (by simp [hx])
    simp [csize] at ih ⊢
    rw [hcd, ih this]
    ring

/-! ### The `polynomial` struct (`polynomial.h`)

Fields mirror the C++ attributes `dim_`, `coefficients_`, `degree_`,
`T_min_`, `T_max_`.  The template parameter `Safe` becomes an explicit
`Bool` argument of each operation. -/

structure Poly where
  dim_ : ℕ
  coefficients_ : List (List ℚ)
  degree_ : ℕ
  T_min_ : ℚ
  T_max_ : ℚ
  deriving DecidableEq, Repr

/-- The empty constructor `polynomial()`: `dim_ = 0`, `T_min_ = T_max_ = 0`,
no coefficients.  (C++ leaves `degree_` uninitialized; it is never read
before `check_if_not_empty` throws, so the model sets it to 0.) -/
def polyDefault : Poly := ⟨0, [], 0, 0, 0⟩

/-- `safe_check()`: when `Safe`, reject `T_min_ > T_max_`
(`std::invalid_argument`) and a coefficients/degree mismatch
(`std::runtime_error`). -/
def safeCheck (safe : Bool) (p : Poly) : Except Err Unit :=
  if safe then
    if p.T_min_ > p.T_max_ then .error .invalidArgument
    else if p.coefficients_.length ≠ p.degree_ + 1 then .error .runtimeError
    else .ok ()
  else .ok ()

/-- `init_coeffs(first, last)`: builds the `dim_ × size` matrix whose
column `i` is the `i`-th input point.  Each Eigen column assignment
`res.col(i) = *cit` asserts that the point has `dim_` rows. -/
def initCoeffs (dim : ℕ) (pts : List (List ℚ)) : Except Err (List (List ℚ)) :=
  if pts.all (fun c => c.length == dim) then .ok pts else .error .eigenAssert

/-- The raw-coefficients constructor
`polynomial(coefficients, min, max)`: `dim_ = coefficients.rows()`,
`degree_ = coefficients.cols() - 1`, then `safe_check()`. -/
def mkPolyRaw (safe : Bool) (cols : List (List ℚ)) (tmin tmax : ℚ) :
    Except Err Poly :=
  let p : Poly := ⟨matRows cols, cols, cols.length - 1, tmin, tmax⟩
  (safeCheck safe p).map fun _ => p

/-- The container constructor `polynomial(coefficients, min, max)`
(and the equivalent iterator-pair constructor):
`dim_ = coefficients.begin()->size()`, matrix built by `init_coeffs`,
`degree_ = cols - 1`, then `safe_check()`.  (Dereferencing `begin()` of
an empty container is undefined behaviour, modelled as an assert.) -/
def mkPolyPoints (safe : Bool) (pts : List (List ℚ)) (tmin tmax : ℚ) :
    Except Err Poly :=
  match pts with
  | [] => .error .eigenAssert
  | p0 :: _ =>
    (initCoeffs p0.length pts).bind fun cols =>
      let p : Poly := ⟨p0.length, cols, cols.length - 1, tmin, tmax⟩
      (safeCheck safe p).map fun _ => p

/-- The C0 boundary constructor `polynomial(init, end, min, max)`
(degree 1): checks `init.size() == end.size()`
(`std::invalid_argument`), sets coefficient columns
`[init, (end - init) / (max - min)]` via `init_coeffs`, then
`safe_check()`. -/
def polyC0 (safe : Bool) (init fin : List ℚ) (tmin tmax : ℚ) :
    Except Err Poly :=
  if init.length ≠ fin.length then .error .invalidArgument
  else
    (initCoeffs init.length [init, vdivS (vsub fin init) (tmax - tmin)]).bind
      fun cols =>
        let p : Poly := ⟨init.length, cols, 1, tmin, tmax⟩
        (safeCheck safe p).map fun _ => p

/-- The C1 boundary constructor
`polynomial(init, d_init, end, d_end, min, max)` (degree 3): dimension
checks of `end`, `d_init`, `d_end` against `init`
(`std::invalid_argument`), then per spatial dimension the coefficients
are `m_inv * bc` for the fixed 4×4 boundary-condition system; the closed
form of that solve (in terms of `T = max - min`) is written out. -/
def polyC1 (safe : Bool) (init d_init fin d_fin : List ℚ) (tmin tmax : ℚ) :
    Except Err Poly :=
  if init.length ≠ fin.length then .error .invalidArgument
  else if init.length ≠ d_init.length then .error .invalidArgument
  else if init.length ≠ d_fin.length then .error .invalidArgument
  else
    let T := tmax - tmin
    let n := init.length
    let c2 := (List.range n).map fun i =>
      (3 * (entry fin i - entry init i)
        - (2 * entry d_init i + entry d_fin i) * T) / T ^ 2
    let c3 := (List.range n).map fun i =>
      ((entry d_init i + entry d_fin i) * T
        - 2 * (entry fin i - entry init i)) / T ^ 3
    let p : Poly := ⟨n, [init, d_init, c2, c3], 3, tmin, tmax⟩
    (safeCheck safe p).map fun _ => p

/-- The C2 boundary constructor
`polynomial(init, d_init, dd_init, end, d_end, dd_end, min, max)`
(degree 5): dimension checks against `init`
(`std::invalid_argument`), then per dimension the coefficients are
`m_inv * bc` for the fixed 6×6 boundary-condition system; the closed
form of that solve is written out with
`D = end - init - d_init*T - dd_init*T^2/2`,
`Dv = d_end - d_init - dd_init*T`, `Da = dd_end - dd_init`. -/
def polyC2 (safe : Bool) (init d_init dd_init fin d_fin dd_fin : List ℚ)
    (tmin tmax : ℚ) : Except Err Poly :=
  if init.length ≠ fin.length then .error .invalidArgument
  else if init.length ≠ d_init.length then .error .invalidArgument
  else if init.length ≠ d_fin.length then .error .invalidArgument
  else if init.length ≠ dd_init.length then .error .invalidArgument
  else if init.length ≠ dd_fin.length then .error .invalidArgument
  else
    let T := tmax - tmin
    let n := init.length
    let dd2 := (List.range n).map fun i => entry dd_init i / 2
    let c3 := (List.range n).map fun i =>
      (10 * (entry fin i - entry init i - entry d_init i * T
              - entry dd_init i * T ^ 2 / 2)
        - 4 * (entry d_fin i - entry d_init i - entry dd_init i * T) * T
        + (entry dd_fin i - entry dd_init i) * T ^ 2 / 2) / T ^ 3
    let c4 := (List.range n).map fun i =>
      (- 15 * (entry fin i - entry init i - entry d_init i * T
              - entry dd_init i * T ^ 2 / 2)
        + 7 * (entry d_fin i - entry d_init i - entry dd_init i * T) * T
        - (entry dd_fin i - entry dd_init i) * T ^ 2) / T ^ 4
    let c5 := (List.range n).map fun i =>
      (6 * (entry fin i - entry init i - entry d_init i * T
              - entry dd_init i * T ^ 2 / 2)
        - 3 * (entry d_fin i - entry d_init i - entry dd_init i * T) * T
        + (entry dd_fin i - entry dd_init i) * T ^ 2 / 2) / T ^ 5
    let p : Poly := ⟨n, [init, d_init, dd2, c3, c4, c5], 5, tmin, tmax⟩
    (safeCheck safe p).map fun _ => p

/-! ### Evaluation and differentiation -/

/-- The Horner loop of `operator()`: starting from
`h = coefficients_.col(degree_)`, repeat `h = dt * h + col(i)` for
`i = degree_ - 1` down to `0` (the second argument counts the remaining
iterations). -/
def hornerGo (cols : List (List ℚ)) (dt : ℚ) : List ℚ → ℕ → List ℚ
  | h, 0 => h
  | h, i + 1 => hornerGo cols dt (vadd (smul dt h) (getCol cols i)) i

/-- The Horner value computed by `operator()(t)` after its checks. -/
def hornerEval (p : Poly) (t : ℚ) : List ℚ :=
  hornerGo p.coefficients_ (t - p.T_min_) (getCol p.coefficients_ p.degree_)
    p.degree_

/-- `operator()(t)`: `check_if_not_empty()` (`coefficients_.size() == 0`
throws, the spec's InvalidState), then in safe mode the range check on
`[T_min_, T_max_]` (the spec's OutOfRange), then Horner evaluation. -/
def polyEval (safe : Bool) (p : Poly) (t : ℚ) : Except Err (List ℚ) :=
  if csize p.coefficients_ = 0 then .error .invalidState
  else if (t < p.T_min_ ∨ t > p.T_max_) ∧ safe = true then .error .outOfRange
  else .ok (hornerEval p t)

/-- `fact(n, order)`: `res = 1; for i < order, res *= (num_t)(n - i)`
(`n - i` is the `size_t` — truncated — subtraction). -/
def fact (n ord : ℕ) : ℚ :=
  (List.range ord).foldl (fun res i => res * ((n - i : ℕ) : ℚ)) 1

/-- The loop of `derivate(t, order)`: for `i = order` to `degree_`,
`currentPoint_ += cdt * col(i) * fact(i, order)` with `cdt *= dt` each
iteration; arguments are the current index, remaining iteration count,
`cdt`, and the accumulator. -/
def derivGo (cols : List (List ℚ)) (ord : ℕ) (dt : ℚ) :
    ℕ → ℕ → ℚ → List ℚ → List ℚ
  | _, 0, _, acc => acc
  | i, rem + 1, cdt, acc =>
    derivGo cols ord dt (i + 1) rem (cdt * dt)
      (vadd acc (smul (cdt * fact i ord) (getCol cols i)))

/-- The value computed by `derivate(t, order)` after its checks:
the loop starting at `i = order` with `cdt = 1` and accumulator
`point_t::Zero(dim_)`. -/
def derivEval (p : Poly) (t : ℚ) (ord : ℕ) : List ℚ :=
  derivGo p.coefficients_ ord (t - p.T_min_) ord (p.degree_ + 1 - ord) 1
    (zeroVec p.dim_)

/-- `derivate(t, order)`: same `check_if_not_empty` and safe-mode range
check as `operator()`, then the direct power-sum loop. -/
def polyDerivate (safe : Bool) (p : Poly) (t : ℚ) (ord : ℕ) :
    Except Err (List ℚ) :=
  if csize p.coefficients_ = 0 then .error .invalidState
  else if (t < p.T_min_ ∨ t > p.T_max_) ∧ safe = true then .error .outOfRange
  else .ok (derivEval p t ord)

/-- `deriv_coeff(coeff)`: a single-column matrix becomes the zero column
(`coeff_t::Zero(coeff.rows(), 1)`), otherwise column `i` of the result is
`coeff.col(i + 1) * (i + 1)` for `i < cols - 1`. -/
def derivCoeff (cols : List (List ℚ)) : List (List ℚ) :=
  if cols.length = 1 then [zeroVec (matRows cols)]
  else (List.range (cols.length - 1)).map fun i : ℕ =>
    smul ((i : ℚ) + 1) (getCol cols (i + 1))

/-- `compute_derivate(order)`: `check_if_not_empty()`, then `order = 0`
returns a copy, else it builds `polynomial(deriv_coeff(coefficients_),
T_min_, T_max_)` (raw constructor, hence `safe_check`) and recurses with
`order - 1`. -/
def computeDerivate (safe : Bool) (p : Poly) (k : ℕ) : Except Err Poly :=
  if csize p.coefficients_ = 0 then .error .invalidState
  else
    match k with
    | 0 => .ok p
    | k' + 1 =>
      (mkPolyRaw safe (derivCoeff p.coefficients_) p.T_min_ p.T_max_).bind
        fun dp => computeDerivate safe dp k'

/-- Modelled from the spec's words (for the refinement claim): the direct
monomial sum over coefficient columns,
`sum of coefficient_i * (t - t_min)^i`. -/
def monomialSum (p : Poly) (t : ℚ) : List ℚ :=
  (List.range (p.degree_ + 1)).foldl
    (fun acc i => vadd acc (smul ((t - p.T_min_) ^ i) (getCol p.coefficients_ i)))
    (zeroVec p.dim_)

/-- Well-formedness established by every non-default constructor: the
coefficient matrix is rectangular with `dim_` rows and
`degree_ + 1` columns. -/
def PolyWF (p : Poly) : Prop :=
  (∀ c ∈ p.coefficients_, c.length = p.dim_) ∧
    p.coefficients_.length = p.degree_ + 1

instance (p : Poly) : Decidable (PolyWF p) := by
  unfold PolyWF; infer_instance

/-! ### The `linear_variable` struct (`linear_variable.h`)

`B_` is an Eigen dynamic matrix stored as its list of rows, `c_` a
vector, `zero` the fast-path flag.  Eigen compound assignments
(`+=`, `-=`) on mismatched shapes hit `eigen_assert`; they are modelled
as `Option` failures (`none`). -/

/-- `matrix_x_t::Identity(n, n)` as a list of rows. -/
def matIdentity (n : ℕ) : List (List ℚ) :=
  (List.range n).map fun i => (List.range n).map fun j => if i = j then (1 : ℚ) else 0

/-- `matrix_x_t::Zero(r, c)` as a list of rows. -/
def matZeroM (r c : ℕ) : List (List ℚ) :=
  List.replicate r (List.replicate c 0)

/-- `cols()` of a (rectangular) list-of-rows matrix. -/
def matColsLV (A : List (List ℚ)) : ℕ := (A.getD 0 []).length

/-- Eigen `A += B` on dynamic matrices: asserts matching shapes, then
adds componentwise. -/
def matAddO (A B : List (List ℚ)) : Option (List (List ℚ)) :=
  if A.length = B.length ∧ matColsLV A = matColsLV B then
    some (List.zipWith (fun r s => List.zipWith (· + ·) r s) A B)
  else none

/-- Eigen `A -= B` on dynamic matrices: asserts matching shapes, then
subtracts componentwise. -/
def matSubO (A B : List (List ℚ)) : Option (List (List ℚ)) :=
  if A.length = B.length ∧ matColsLV A = matColsLV B then
    some (List.zipWith (fun r s => List.zipWith (· - ·) r s) A B)
  else none

/-- Eigen `u += v` on dynamic vectors: asserts matching lengths. -/
def vecAddO (u v : List ℚ) : Option (List ℚ) :=
  if u.length = v.length then some (List.zipWith (· + ·) u v) else none

/-- Eigen `u -= v` on dynamic vectors: asserts matching lengths. -/
def vecSubO (u v : List ℚ) : Option (List ℚ) :=
  if u.length = v.length then some (List.zipWith (· - ·) u v) else none

/-- Negation `-B` of a list-of-rows matrix. -/
def matNeg (A : List (List ℚ)) : List (List ℚ) :=
  A.map (List.map (fun x => -x))

/-- `linear_variable`: linear part `B_`, constant part `c_`, zero
fast-path flag. -/
structure LinVar where
  B : List (List ℚ)
  c : List ℚ
  zero : Bool
  deriving DecidableEq, Repr

/-- The default constructor `linear_variable()`:
`B_ = Identity(0, 0)`, `c_ = Zero(0)`, `zero = true`. -/
def lvDefault : LinVar := ⟨matIdentity 0, [], true⟩

/-- The constant constructor `linear_variable(c)`:
`B_ = Zero(c.size(), c.size())`, `zero = false`. -/
def lvConst (c : List ℚ) : LinVar := ⟨matZeroM c.length c.length, c, false⟩

/-- The mixed constructor `linear_variable(B, c)`: `zero = false`. -/
def lvMixed (B : List (List ℚ)) (c : List ℚ) : LinVar := ⟨B, c, false⟩

/-- The static factory `Zero(dim)`:
`linear_variable(matrix_x_t::Identity(dim, dim), vector_x_t::Zero(dim))`
(mixed constructor, so `zero = false`). -/
def lvZero (dim : ℕ) : LinVar := lvMixed (matIdentity dim) (zeroVec dim)

/-- `operator+=(w1)`: no-op if `w1.isZero()`; if `isZero()` then
`B_ = w1.B_; zero = w1.isZero()`, else `B_ += w1.B_`; in both of the
last two cases `c_ += w1.c_`. -/
def lvAddAssign (w w1 : LinVar) : Option LinVar :=
  if w1.zero then some w
  else if w.zero then
    (vecAddO w.c w1.c).map fun c' => ⟨w1.B, c', w1.zero⟩
  else
    (matAddO w.B w1.B).bind fun B' =>
      (vecAddO w.c w1.c).map fun c' => ⟨B', c', w.zero⟩

/-- `operator-=(w1)`: mirror of `+=` with `B_ = -w1.B_` in the zero
branch and componentwise subtraction otherwise. -/
def lvSubAssign (w w1 : LinVar) : Option LinVar :=
  if w1.zero then some w
  else if w.zero then
    (vecSubO w.c w1.c).map fun c' => ⟨matNeg w1.B, c', w1.zero⟩
  else
    (matSubO w.B w1.B).bind fun B' =>
      (vecSubO w.c w1.c).map fun c' => ⟨B', c', w.zero⟩

/-- `operator*=(d)`: scale `B_` and `c_`. -/
def lvMulAssign (w : LinVar) (d : ℚ) : LinVar :=
  ⟨w.B.map (List.map (· * d)), w.c.map (· * d), w.zero⟩

/-- `operator/=(d)`: divide `B_` and `c_`. -/
def lvDivAssign (w : LinVar) (d : ℚ) : LinVar :=
  ⟨w.B.map (List.map (· / d)), w.c.map (· / d), w.zero⟩

/-- Free `operator+`: `res(w1.B(), w1.c())` (mixed constructor), then
`res += w2`. -/
def lvAdd (w1 w2 : LinVar) : Option LinVar :=
  lvAddAssign (lvMixed w1.B w1.c) w2

/-- Free `operator-`: `res(w1.B(), w1.c())`, then `res -= w2`. -/
def lvSub (w1 w2 : LinVar) : Option LinVar :=
  lvSubAssign (lvMixed w1.B w1.c) w2

/-- Free `operator*(k, w)`: `res(w.B(), w.c())`, then `res *= k`. -/
def lvMulL (k : ℚ) (w : LinVar) : LinVar :=
  lvMulAssign (lvMixed w.B w.c) k

/-- Free `operator*(w, k)`: `res(w.B(), w.c())`, then `res *= k`. -/
def lvMulR (w : LinVar) (k : ℚ) : LinVar :=
  lvMulAssign (lvMixed w.B w.c) k

/-- Free `operator/(w, k)`: `res(w.B(), w.c())`, then `res /= k`. -/
def lvDiv (w : LinVar) (k : ℚ) : LinVar :=
  lvDivAssign (lvMixed w.B w.c) k

/-- Sum of squared entries of a vector (`c_.norm()` squared). -/
def vecNormSq (v : List ℚ) : ℚ := (v.map fun x => x * x).sum

/-- Sum of squared entries of a matrix (`B_.norm()`, the Frobenius norm,
squared). -/
def matNormSq (A : List (List ℚ)) : ℚ := (A.map vecNormSq).sum

/-- `norm()`: `isZero() ? 0 : B_.norm() + c_.norm()` (sum of the two
component Frobenius/Euclidean norms). -/
noncomputable def lvNorm (w : LinVar) : ℝ :=
  if w.zero then 0
  else Real.sqrt ((matNormSq w.B : ℚ) : ℝ) + Real.sqrt ((vecNormSq w.c : ℚ) : ℝ)

/-- `Eigen::NumTraits<double>::dummy_precision()`. -/
noncomputable def dummyPrecision : ℝ := 1 / 10 ^ 12

/-- `isApprox(other, prec)`: `(*this - other).norm() < prec`.  The free
`operator-` may hit an Eigen assert, in which case no boolean is
produced; `lvIsApprox` holds exactly when the subtraction succeeds and
the norm of the difference is below `prec`. -/
def lvIsApprox (w other : LinVar) (prec : ℝ) : Prop :=
  ∃ d, lvSub w other = some d ∧ lvNorm d < prec

/-! ### Lemmas: the Horner loop -/

theorem hornerGo_length {cols : List (List ℚ)} {dim : ℕ}
    (hc : ∀ c ∈ cols, c.length = dim) (dt : ℚ) :
    ∀ (k : ℕ) (h : List ℚ), h.length = dim → k ≤ cols.length →
      (hornerGo cols dt h k).length = dim := by
  intro k
  induction k with
  | zero => intro h hh _; simpa [hornerGo] using hh
  | succ k ih =>
    intro h hh hk
    have hcol : (getCol cols k).length = dim :=
      getCol_length hc (Nat.lt_of_succ_le hk)
    have : (vadd (smul dt h) (getCol cols k)).length = dim := by
      rw [length_vadd, length_smul, hh, hcol, Nat.min_self]
    simpa [hornerGo] using ih _ this (Nat.le_of_succ_le hk)

theorem hornerGo_entry {cols : List (List ℚ)} {dim : ℕ}
    (hc : ∀ c ∈ cols, c.length = dim) (dt : ℚ) :
    ∀ (k : ℕ) (h : List ℚ), h.length = dim → k ≤ cols.length → ∀ j,
      entry (hornerGo cols dt h k) j =
        dt ^ k * entry h j +
          ∑ i ∈ Finset.range k, dt ^ i * entry (getCol cols i) j := by
  intro k
  induction k with
  | zero => intro h hh _ j; simp [hornerGo]
  | succ k ih =>
    intro h hh hk j
    have hcol : (getCol cols k).length = dim :=
      getCol_length hc (Nat.lt_of_succ_le hk)
    have hlen : (vadd (smul dt h) (getCol cols k)).length = dim := by
      rw [length_vadd, length_smul, hh, hcol, Nat.min_self]
    have hrec := ih _ hlen (Nat.le_of_succ_le hk) j
    have hentry : entry (vadd (smul dt h) (getCol cols k)) j =
        dt * entry h j + entry (getCol cols k) j := by
      rw [entry_vadd _ _ (by rw [length_smul, hh, hcol]), entry_smul]
    rw [hornerGo, hrec, hentry, Finset.sum_range_succ]
    ring

theorem hornerEval_entry {p : Poly} (hwf : PolyWF p) (t : ℚ) (j : ℕ) :
    entry (hornerEval p t) j =
      ∑ i ∈ Finset.range (p.degree_ + 1),
        (t - p.T_min_) ^ i * entry (getCol p.coefficients_ i) j := by
  obtain ⟨hc, hlen⟩ := hwf
  have hdlt : p.degree_ < p.coefficients_.length := by omega
  have h0 : (getCol p.coefficients_ p.degree_).length = p.dim_ :=
    getCol_length hc hdlt
  rw [hornerEval,
    hornerGo_entry hc _ _ _ h0 (Nat.le_of_lt hdlt) j,
    Finset.sum_range_succ]
  ring

theorem hornerEval_length {p : Poly} (hwf : PolyWF p) (t : ℚ) :
    (hornerEval p t).length = p.dim_ := by
  obtain ⟨hc, hlen⟩ := hwf
  have hdlt : p.degree_ < p.coefficients_.length := by omega
  exact hornerGo_length hc _ _ _ (getCol_length hc hdlt) (Nat.le_of_lt hdlt)

/-! ### Lemmas: `fact` and the derivative loop -/

theorem fact_zero (n : ℕ) : fact n 0 = 1 := rfl

theorem foldl_mul_shift (g : ℕ → ℚ) (l : List ℕ) :
    ∀ a b : ℚ, l.foldl (fun res i => res * g i) (a * b) =
      a * l.foldl (fun res i => res * g i) b := by
  induction l with
  | nil => intro a b; rfl
  | cons x l ih =>
    intro a b
    simpa [List.foldl_cons, mul_assoc] using ih a (b * g x)

theorem fact_succ_succ (n o : ℕ) :
    fact (n + 1) (o + 1) = ((n : ℚ) + 1) * fact n o := by
  rw [fact, List.range_succ_eq_map, List.foldl_cons, List.foldl_map]
  have h1 : (1 : ℚ) * ((n + 1 - 0 : ℕ) : ℚ) = ((n : ℚ) + 1) * 1 := by
    push_cast; ring
  rw [h1]
  have h2 : ∀ (i : ℕ), ((n + 1 - (i + 1) : ℕ) : ℚ) = ((n - i : ℕ) : ℚ) := by
    intro i; congr 1; omega
  have h3 : (fun (res : ℚ) (i : ℕ) => res * ((n + 1 - Nat.succ i : ℕ) : ℚ)) =
      fun (res : ℚ) (i : ℕ) => res * ((n - i : ℕ) : ℚ) := by
    funext res i; rw [Nat.succ_eq_add_one, h2]
  rw [h3, foldl_mul_shift (fun i => ((n - i : ℕ) : ℚ))]
  rfl

theorem derivGo_length {cols : List (List ℚ)} {dim : ℕ}
    (hc : ∀ c ∈ cols, c.length = dim) (ord : ℕ) (dt : ℚ) :
    ∀ (rem i : ℕ) (cdt : ℚ) (acc : List ℚ), acc.length = dim →
      (∀ kk, kk < rem → i + kk < cols.length) →
      (derivGo cols ord dt i rem cdt acc).length = dim := by
  intro rem
  induction rem with
  | zero => intro i cdt acc hacc _; simpa [derivGo] using hacc
  | succ rem ih =>
    intro i cdt acc hacc hidx
    have hi : i < cols.length := by simpa using hidx 0 (Nat.succ_pos rem)
    have hcol : (getCol cols i).length = dim := getCol_length hc hi
    have hlen : (vadd acc (smul (cdt * fact i ord) (getCol cols i))).length = dim := by
      rw [length_vadd, length_smul, hacc, hcol, Nat.min_self]
    exact (by
      simpa [derivGo] using ih (i + 1) (cdt * dt) _ hlen
        (fun kk hk => by have := hidx (kk + 1) (by omega); omega))

theorem derivGo_entry {cols : List (List ℚ)} {dim : ℕ}
    (hc : ∀ c ∈ cols, c.length = dim) (ord : ℕ) (dt : ℚ) :
    ∀ (rem i : ℕ) (cdt : ℚ) (acc : List ℚ), acc.length = dim →
      (∀ kk, kk < rem → i + kk < cols.length) → ∀ j,
      entry (derivGo cols ord dt i rem cdt acc) j =
        entry acc j +
          ∑ kk ∈ Finset.range rem,
            cdt * dt ^ kk *
              (fact (i + kk) ord * entry (getCol cols (i + kk)) j) := by
  intro rem
  induction rem with
  | zero => intro i cdt acc hacc _ j; simp [derivGo]
  | succ rem ih =>
    intro i cdt acc hacc hidx j
    have hi : i < cols.length := by simpa using hidx 0 (Nat.succ_pos rem)
    have hcol : (getCol cols i).length = dim := getCol_length hc hi
    have hlen : (vadd acc (smul (cdt * fact i ord) (getCol cols i))).length = dim := by
      rw [length_vadd, length_smul, hacc, hcol, Nat.min_self]
    have hrec := ih (i + 1) (cdt * dt) _ hlen
      (fun kk hk => by have := hidx (kk + 1) (by omega); omega) j
    have hentry : entry (vadd acc (smul (cdt * fact i ord) (getCol cols i))) j =
        entry acc j + cdt * fact i ord * entry (getCol cols i) j := by
      rw [entry_vadd _ _ (by rw [length_smul, hacc, hcol]), entry_smul]
    rw [derivGo, hrec, hentry, Finset.sum_range_succ']
    have hshift : ∀ kk : ℕ,
        cdt * dt ^ (kk + 1) *
            (fact (i + (kk + 1)) ord * entry (getCol cols (i + (kk + 1))) j) =
          cdt * dt * dt ^ kk *
            (fact (i + 1 + kk) ord * entry (getCol cols (i + 1 + kk)) j) := by
      intro kk
      have : i + (kk + 1) = i + 1 + kk := by omega
      rw [this]; ring
    rw [Finset.sum_congr rfl fun kk _ => hshift kk]
    simp only [pow_zero, Nat.add_zero]
    ring

theorem derivEval_entry {p : Poly} (hwf : PolyWF p) (t : ℚ) (ord : ℕ) (j : ℕ) :
    entry (derivEval p t ord) j =
      ∑ kk ∈ Finset.range (p.degree_ + 1 - ord),
        (t - p.T_min_) ^ kk *
          (fact (ord + kk) ord * entry (getCol p.coefficients_ (ord + kk)) j) := by
  obtain ⟨hc, hlen⟩ := hwf
  rw [derivEval,
    derivGo_entry hc _ _ _ _ _ _ (length_zeroVec _)
      (fun kk hk => by omega) j]
  simp [entry_zeroVec]

theorem derivEval_length {p : Poly} (hwf : PolyWF p) (t : ℚ) (ord : ℕ) :
    (derivEval p t ord).length = p.dim_ := by
  obtain ⟨hc, hlen⟩ := hwf
  exact derivGo_length hc _ _ _ _ _ _ (length_zeroVec _) (fun kk hk => by omega)

/-! ### Lemmas: the monomial-sum fold -/

theorem monoFold_length {cols : List (List ℚ)} {dim : ℕ}
    (hc : ∀ c ∈ cols, c.length = dim) (f : ℕ → ℚ) :
    ∀ (n : ℕ) (v0 : List ℚ), v0.length = dim → n ≤ cols.length →
      ((List.range n).foldl
        (fun acc i => vadd acc (smul (f i) (getCol cols i))) v0).length = dim := by
  intro n
  induction n with
  | zero => intro v0 hv _; simpa using hv
  | succ n ih =>
    intro v0 hv hn
    rw [List.range_succ, List.foldl_append, List.foldl_cons, List.foldl_nil]
    have hmid := ih v0 hv (Nat.le_of_succ_le hn)
    rw [length_vadd, length_smul, hmid,
      getCol_length hc (Nat.lt_of_succ_le hn), Nat.min_self]

theorem monoFold_entry {cols : List (List ℚ)} {dim : ℕ}
    (hc : ∀ c ∈ cols, c.length = dim) (f : ℕ → ℚ) :
    ∀ (n : ℕ) (v0 : List ℚ), v0.length = dim → n ≤ cols.length → ∀ j,
      entry ((List.range n).foldl
        (fun acc i => vadd acc (smul (f i) (getCol cols i))) v0) j =
        entry v0 j + ∑ i ∈ Finset.range n, f i * entry (getCol cols i) j := by
  intro n
  induction n with
  | zero => intro v0 hv _ j; simp
  | succ n ih =>
    intro v0 hv hn j
    rw [List.range_succ, List.foldl_append, List.foldl_cons, List.foldl_nil]
    have hmid := monoFold_length hc f n v0 hv (Nat.le_of_succ_le hn)
    rw [entry_vadd _ _ (by
        rw [hmid, length_smul, getCol_length hc (Nat.lt_of_succ_le hn)]),
      entry_smul, ih v0 hv (Nat.le_of_succ_le hn) j, Finset.sum_range_succ]
    ring

theorem monomialSum_entry {p : Poly} (hwf : PolyWF p) (t : ℚ) (j : ℕ) :
    entry (monomialSum p t) j =
      ∑ i ∈ Finset.range (p.degree_ + 1),
        (t - p.T_min_) ^ i * entry (getCol p.coefficients_ i) j := by
  obtain ⟨hc, hlen⟩ := hwf
  rw [monomialSum,
    monoFold_entry hc _ _ _ (length_zeroVec _) (by omega) j, entry_zeroVec]
  ring

theorem monomialSum_length {p : Poly} (hwf : PolyWF p) (t : ℚ) :
    (monomialSum p t).length = p.dim_ := by
  obtain ⟨hc, hlen⟩ := hwf
  exact monoFold_length hc _ _ _ (length_zeroVec _) (by omega)

/-! ### Core evaluation equivalences -/

/-- Horner evaluation equals the direct monomial sum. -/
theorem hornerEval_eq_monomialSum {p : Poly} (hwf : PolyWF p) (t : ℚ) :
    hornerEval p t = monomialSum p t := by
  refine list_eq_of_entry _ _ ?_ ?_
  · rw [hornerEval_length hwf, monomialSum_length hwf]
  · intro j
    rw [hornerEval_entry hwf, monomialSum_entry hwf]

/-- The order-0 derivative loop value equals the Horner value. -/
theorem derivEval_zero_eq {p : Poly} (hwf : PolyWF p) (t : ℚ) :
    derivEval p t 0 = hornerEval p t := by
  refine list_eq_of_entry _ _ ?_ ?_
  · rw [derivEval_length hwf, hornerEval_length hwf]
  · intro j
    rw [derivEval_entry hwf, hornerEval_entry hwf]
    refine Finset.sum_congr (by rw [Nat.sub_zero]) fun kk _ => ?_
    rw [Nat.zero_add, fact_zero, one_mul]

/-! ### Lemmas: `deriv_coeff` and the derivative curve -/

theorem derivCoeff_single {cols : List (List ℚ)} {dim : ℕ}
    (hc : ∀ c ∈ cols, c.length = dim) (h1 : cols.length = 1) :
    derivCoeff cols = [zeroVec dim] := by
  rw [derivCoeff, if_pos h1, matRows, getCol_length hc (by omega)]

theorem getCol_range_map (m : ℕ) (f : ℕ → List ℚ) (i : ℕ) (hi : i < m) :
    getCol ((List.range m).map f) i = f i := by
  rw [getCol, List.getD_eq_getElem?_getD, List.getElem?_map,
    List.getElem?_range hi]
  rfl

theorem derivCoeff_multi_length {cols : List (List ℚ)} (h1 : cols.length ≠ 1) :
    (derivCoeff cols).length = cols.length - 1 := by
  rw [derivCoeff, if_neg h1, List.length_map, List.length_range]

theorem derivCoeff_multi_col {cols : List (List ℚ)} (h1 : cols.length ≠ 1)
    {i : ℕ} (hi : i < cols.length - 1) :
    getCol (derivCoeff cols) i = smul ((i : ℚ) + 1) (getCol cols (i + 1)) := by
  rw [derivCoeff, if_neg h1, getCol_range_map _ _ _ hi]

theorem derivCoeff_mem {cols : List (List ℚ)} {dim : ℕ}
    (hc : ∀ c ∈ cols, c.length = dim) (_hne : cols ≠ []) :
    ∀ c ∈ derivCoeff cols, c.length = dim := by
  by_cases h1 : cols.length = 1
  · rw [derivCoeff_single hc h1]
    intro c hcm
    simp at hcm
    rw [hcm, length_zeroVec]
  · rw [derivCoeff, if_neg h1]
    intro c hcm
    obtain ⟨i, hi, rfl⟩ := List.mem_map.mp hcm
    have hi' : i < cols.length - 1 := by simpa using hi
    rw [length_smul, getCol_length hc (by omega)]

theorem derivCoeff_ne_nil {cols : List (List ℚ)} (hne : cols ≠ []) :
    derivCoeff cols ≠ [] := by
  by_cases h1 : cols.length = 1
  · rw [derivCoeff, if_pos h1]; simp
  · have : cols.length ≠ 0 := by simpa using hne
    rw [← List.length_pos, derivCoeff_multi_length h1]
    omega

theorem derivCoeff_matRows {cols : List (List ℚ)} {dim : ℕ}
    (hc : ∀ c ∈ cols, c.length = dim) (hne : cols ≠ []) :
    matRows (derivCoeff cols) = dim := by
  have hlen0 : 0 < (derivCoeff cols).length :=
    List.length_pos.mpr (derivCoeff_ne_nil hne)
  exact getCol_length (derivCoeff_mem hc hne) hlen0

/-- The polynomial built inside `compute_derivate` from
`deriv_coeff(coefficients_)` by the raw constructor. -/
def derivPoly (p : Poly) : Poly :=
  ⟨p.dim_, derivCoeff p.coefficients_, (derivCoeff p.coefficients_).length - 1,
    p.T_min_, p.T_max_⟩

theorem derivPoly_wf {p : Poly} (hwf : PolyWF p)
    (hne : p.coefficients_ ≠ []) : PolyWF (derivPoly p) := by
  obtain ⟨hc, hlen⟩ := hwf
  refine ⟨derivCoeff_mem hc hne, ?_⟩
  have : (derivCoeff p.coefficients_).length ≠ 0 := by
    simpa [List.length_eq_zero] using derivCoeff_ne_nil hne
  simp only [derivPoly]
  omega

theorem mkPolyRaw_deriv {p : Poly} (safe : Bool) (hwf : PolyWF p)
    (hne : p.coefficients_ ≠ []) (hT : p.T_min_ ≤ p.T_max_) :
    mkPolyRaw safe (derivCoeff p.coefficients_) p.T_min_ p.T_max_ =
      .ok (derivPoly p) := by
  obtain ⟨hc, hlen⟩ := hwf
  have hlen' : (derivCoeff p.coefficients_).length ≠ 0 := by
    simpa [List.length_eq_zero] using derivCoeff_ne_nil hne
  have hrows : matRows (derivCoeff p.coefficients_) = p.dim_ :=
    derivCoeff_matRows hc hne
  rw [mkPolyRaw]
  have hchk : safeCheck safe
      ⟨matRows (derivCoeff p.coefficients_), derivCoeff p.coefficients_,
        (derivCoeff p.coefficients_).length - 1, p.T_min_, p.T_max_⟩ = .ok () := by
    rw [safeCheck]
    cases safe with
    | false => rfl
    | true =>
      simp only [if_true]
      rw [if_neg (by simpa using not_lt.mpr hT), if_neg (by simp; omega)]
  rw [hchk]
  show Except.ok _ = _
  rw [derivPoly, hrows]

/-- The key index shift: the direct order-`(k+1)` derivative sum of `p`
coincides with the direct order-`k` derivative sum of the structurally
derived curve. -/
theorem derivEval_derivPoly {p : Poly} (hwf : PolyWF p)
    (hne : p.coefficients_ ≠ []) (t : ℚ) (k : ℕ) :
    derivEval (derivPoly p) t k = derivEval p t (k + 1) := by
  obtain ⟨hc, hlen⟩ := hwf
  have hwf' : PolyWF (derivPoly p) := derivPoly_wf ⟨hc, hlen⟩ hne
  refine list_eq_of_entry _ _ ?_ ?_
  · rw [derivEval_length hwf', derivEval_length ⟨hc, hlen⟩]
    rfl
  intro j
  rw [derivEval_entry hwf', derivEval_entry ⟨hc, hlen⟩]
  by_cases h1 : p.coefficients_.length = 1
  · -- single column: both sides are empty or all-zero sums
    have hdeg : p.degree_ = 0 := by omega
    have hcols' : derivCoeff p.coefficients_ = [zeroVec p.dim_] :=
      derivCoeff_single hc h1
    have hdeg' : (derivPoly p).degree_ = 0 := by
      simp [derivPoly, hcols', length_zeroVec]
    have hzero : ∀ m : ℕ,
        entry (getCol (derivPoly p).coefficients_ m) j = 0 := by
      intro m
      show entry (getCol (derivCoeff p.coefficients_) m) j = 0
      rw [hcols']
      cases m with
      | zero => rw [getCol, List.getD_cons_zero, entry_zeroVec]
      | succ m =>
        rw [getCol, List.getD_cons_succ]
        cases m <;> simp [List.getD, entry_nil]
    rw [hdeg', hdeg]
    rw [Finset.sum_congr rfl fun kk _ => by rw [hzero (k + kk), mul_zero, mul_zero]]
    simp
  · -- at least two columns
    have hlen2 : 2 ≤ p.coefficients_.length := by
      have : p.coefficients_.length ≠ 0 := by simpa [List.length_eq_zero] using hne
      omega
    have hdeg1 : 1 ≤ p.degree_ := by omega
    have hdeg' : (derivPoly p).degree_ = p.degree_ - 1 := by
      simp only [derivPoly]
      rw [derivCoeff_multi_length h1]
      omega
    have hTmin : (derivPoly p).T_min_ = p.T_min_ := rfl
    rw [hdeg', hTmin]
    have hcount : p.degree_ - 1 + 1 - k = p.degree_ + 1 - (k + 1) := by
      omega
    rw [hcount]
    refine Finset.sum_congr rfl fun kk hkk => ?_
    have hkk' : kk < p.degree_ + 1 - (k + 1) := Finset.mem_range.mp hkk
    have hklt : k + kk < p.coefficients_.length - 1 := by omega
    have hcol : getCol (derivPoly p).coefficients_ (k + kk) =
        smul (((k + kk : ℕ) : ℚ) + 1) (getCol p.coefficients_ (k + kk + 1)) := by
      show getCol (derivCoeff p.coefficients_) (k + kk) = _
      rw [derivCoeff_multi_col h1 hklt]
    rw [hcol, entry_smul]
    have hfact : fact (k + kk + 1) (k + 1) =
        (((k + kk : ℕ) : ℚ) + 1) * fact (k + kk) k := by
      rw [fact_succ_succ]
    have hidx : k + 1 + kk = k + kk + 1 := by omega
    rw [hidx, hfact]
    ring

/-! ### Lemmas: `compute_derivate` -/

theorem csize_ne_zero {p : Poly} (hwf : PolyWF p) (hdim : 0 < p.dim_)
    (hne : p.coefficients_ ≠ []) : csize p.coefficients_ ≠ 0 := by
  rw [csize_eq hwf.1]
  have : p.coefficients_.length ≠ 0 := by simpa [List.length_eq_zero] using hne
  positivity

theorem computeDerivate_zero {p : Poly} (safe : Bool)
    (hcs : csize p.coefficients_ ≠ 0) : computeDerivate safe p 0 = .ok p := by
  rw [computeDerivate, if_neg hcs]

theorem computeDerivate_succ {p : Poly} (safe : Bool) (k : ℕ)
    (hcs : csize p.coefficients_ ≠ 0) :
    computeDerivate safe p (k + 1) =
      (mkPolyRaw safe (derivCoeff p.coefficients_) p.T_min_ p.T_max_).bind
        fun dp => computeDerivate safe dp k := by
  rw [computeDerivate, if_neg hcs]

/-- `operator()` and `derivate(·, 0)` agree unconditionally on
well-formed curves: identical guards, and the two loop values agree. -/
theorem polyEval_eq_derivate_zero {p : Poly} (safe : Bool) (hwf : PolyWF p)
    (t : ℚ) : polyEval safe p t = polyDerivate safe p t 0 := by
  rw [polyEval, polyDerivate, derivEval_zero_eq hwf]

/-- Main equivalence behind claim C3, by induction on the order. -/
theorem computeDerivate_bind_eval (safe : Bool) (t : ℚ) :
    ∀ (k : ℕ) (p : Poly), PolyWF p → 0 < p.dim_ → p.coefficients_ ≠ [] →
      p.T_min_ ≤ p.T_max_ →
      (computeDerivate safe p k).bind (fun q => polyEval safe q t) =
        polyDerivate safe p t k := by
  intro k
  induction k with
  | zero =>
    intro p hwf hdim hne hT
    rw [computeDerivate_zero safe (csize_ne_zero hwf hdim hne)]
    exact polyEval_eq_derivate_zero safe hwf t
  | succ k ih =>
    intro p hwf hdim hne hT
    rw [computeDerivate_succ safe k (csize_ne_zero hwf hdim hne),
      mkPolyRaw_deriv safe hwf hne hT]
    have hwf' : PolyWF (derivPoly p) := derivPoly_wf hwf hne
    have hdim' : 0 < (derivPoly p).dim_ := hdim
    have hne' : (derivPoly p).coefficients_ ≠ [] := derivCoeff_ne_nil hne
    have hT' : (derivPoly p).T_min_ ≤ (derivPoly p).T_max_ := hT
    have hbind : (Except.ok (derivPoly p)).bind
        (fun dp => computeDerivate safe dp k) =
        computeDerivate safe (derivPoly p) k := rfl
    rw [hbind, ih (derivPoly p) hwf' hdim' hne' hT']
    -- the direct derivative of the derived curve is the next direct derivative
    rw [polyDerivate, polyDerivate]
    have hcs' : csize (derivPoly p).coefficients_ ≠ 0 :=
      csize_ne_zero hwf' hdim' hne'
    have hcs : csize p.coefficients_ ≠ 0 := csize_ne_zero hwf hdim hne
    rw [if_neg hcs', if_neg hcs]
    have hTmin : (derivPoly p).T_min_ = p.T_min_ := rfl
    have hTmax : (derivPoly p).T_max_ = p.T_max_ := rfl
    rw [hTmin, hTmax, derivEval_derivPoly hwf hne t k]

/-- Whether an `Except` result is a success (no exception escaped). -/
def exceptOk {α : Type} (e : Except Err α) : Bool :=
  match e with
  | .ok _ => true
  | .error _ => false

/-! ### Claim theorems -/

/-- C2: with safe mode enabled, evaluating a (non-empty) polynomial via
`operator()` or `derivate` at `t` strictly outside `[T_min_, T_max_]`
raises OutOfRange; with safe mode disabled the same calls raise no error
and return a numeric result. -/
theorem safe_eval_out_of_range (p : Poly) (t : ℚ) (k : ℕ)
    (hcs : csize p.coefficients_ ≠ 0)
    (hout : t < p.T_min_ ∨ t > p.T_max_) :
    polyEval true p t = .error .outOfRange ∧
      polyDerivate true p t k = .error .outOfRange ∧
      exceptOk (polyEval false p t) = true ∧
      exceptOk (polyDerivate false p t k) = true := by
  refine ⟨?_, ?_, ?_, ?_⟩
  · rw [polyEval, if_neg hcs, if_pos ⟨hout, rfl⟩]
  · rw [polyDerivate, if_neg hcs, if_pos ⟨hout, rfl⟩]
  · rw [polyEval, if_neg hcs, if_neg (by simp)]; rfl
  · rw [polyDerivate, if_neg hcs, if_neg (by simp)]; rfl

theorem safe_eval_out_of_range_witness :
    csize (⟨1, [[1], [2]], 1, 0, 1⟩ : Poly).coefficients_ ≠ 0 ∧
      ((2 : ℚ) < (⟨1, [[1], [2]], 1, 0, 1⟩ : Poly).T_min_ ∨
        (2 : ℚ) > (⟨1, [[1], [2]], 1, 0, 1⟩ : Poly).T_max_) ∧
      (polyEval true ⟨1, [[1], [2]], 1, 0, 1⟩ 2 = .error .outOfRange ∧
        polyDerivate true ⟨1, [[1], [2]], 1, 0, 1⟩ 2 1 = .error .outOfRange ∧
        exceptOk (polyEval false ⟨1, [[1], [2]], 1, 0, 1⟩ 2) = true ∧
        exceptOk (polyDerivate false ⟨1, [[1], [2]], 1, 0, 1⟩ 2 1) = true) :=
  ⟨by decide, by decide,
    safe_eval_out_of_range ⟨1, [[1], [2]], 1, 0, 1⟩ 2 1 (by decide) (by decide)⟩

/-- C3: for every non-empty well-formed polynomial, every derivative
order `k` and every `t` in `[T_min_, T_max_]`, the structural derivative
curve `compute_derivate(k)` evaluated at `t` equals the direct
point-derivative `derivate(t, k)`. -/
theorem compute_derivate_eval_eq_derivate (safe : Bool) (p : Poly) (k : ℕ)
    (t : ℚ) (hwf : PolyWF p) (hdim : 0 < p.dim_)
    (hne : p.coefficients_ ≠ []) (ht1 : p.T_min_ ≤ t) (ht2 : t ≤ p.T_max_) :
    (computeDerivate safe p k).bind (fun q => polyEval safe q t) =
      polyDerivate safe p t k :=
  computeDerivate_bind_eval safe t k p hwf hdim hne (le_trans ht1 ht2)

theorem compute_derivate_eval_eq_derivate_witness :
    PolyWF ⟨1, [[1], [2], [3]], 2, 0, 2⟩ ∧
      0 < (⟨1, [[1], [2], [3]], 2, 0, 2⟩ : Poly).dim_ ∧
      (⟨1, [[1], [2], [3]], 2, 0, 2⟩ : Poly).coefficients_ ≠ [] ∧
      (⟨1, [[1], [2], [3]], 2, 0, 2⟩ : Poly).T_min_ ≤ (1 : ℚ) ∧
      (1 : ℚ) ≤ (⟨1, [[1], [2], [3]], 2, 0, 2⟩ : Poly).T_max_ ∧
      (computeDerivate true ⟨1, [[1], [2], [3]], 2, 0, 2⟩ 1).bind
          (fun q => polyEval true q 1) =
        polyDerivate true ⟨1, [[1], [2], [3]], 2, 0, 2⟩ 1 1 :=
  ⟨by decide, by decide, by decide, by norm_num, by norm_num,
    compute_derivate_eval_eq_derivate true ⟨1, [[1], [2], [3]], 2, 0, 2⟩ 1
      1 (by decide) (by decide) (by decide) (by norm_num) (by norm_num)⟩

/-- C4: for every non-empty well-formed polynomial and `t` in range, the
Horner-scheme `operator()(t)` equals the direct monomial sum over the
coefficient columns, and `derivate(t, 0)` equals `operator()(t)`. -/
theorem horner_eq_monomial_sum (safe : Bool) (p : Poly) (t : ℚ)
    (hwf : PolyWF p) (hdim : 0 < p.dim_) (hne : p.coefficients_ ≠ [])
    (ht1 : p.T_min_ ≤ t) (ht2 : t ≤ p.T_max_) :
    polyEval safe p t = .ok (monomialSum p t) ∧
      polyDerivate safe p t 0 = polyEval safe p t := by
  constructor
  · rw [polyEval, if_neg (csize_ne_zero hwf hdim hne),
      if_neg (by rintro ⟨h | h, -⟩ <;> linarith),
      hornerEval_eq_monomialSum hwf]
  · exact (polyEval_eq_derivate_zero safe hwf t).symm

theorem horner_eq_monomial_sum_witness :
    PolyWF ⟨2, [[1, -1], [2, 0], [3, 5]], 2, 0, 2⟩ ∧
      0 < (⟨2, [[1, -1], [2, 0], [3, 5]], 2, 0, 2⟩ : Poly).dim_ ∧
      (⟨2, [[1, -1], [2, 0], [3, 5]], 2, 0, 2⟩ : Poly).coefficients_ ≠ [] ∧
      (⟨2, [[1, -1], [2, 0], [3, 5]], 2, 0, 2⟩ : Poly).T_min_ ≤ (1 : ℚ) ∧
      (1 : ℚ) ≤ (⟨2, [[1, -1], [2, 0], [3, 5]], 2, 0, 2⟩ : Poly).T_max_ ∧
      (polyEval true ⟨2, [[1, -1], [2, 0], [3, 5]], 2, 0, 2⟩ 1 =
          .ok (monomialSum ⟨2, [[1, -1], [2, 0], [3, 5]], 2, 0, 2⟩ 1) ∧
        polyDerivate true ⟨2, [[1, -1], [2, 0], [3, 5]], 2, 0, 2⟩ 1 0 =
          polyEval true ⟨2, [[1, -1], [2, 0], [3, 5]], 2, 0, 2⟩ 1) :=
  ⟨by decide, by decide, by decide, by decide, by decide,
    horner_eq_monomial_sum true ⟨2, [[1, -1], [2, 0], [3, 5]], 2, 0, 2⟩ 1
      (by decide) (by decide) (by decide) (by decide) (by decide)⟩

/-- C7: evaluating the default-constructed polynomial (empty coefficient
matrix) through `operator()` or `derivate` raises InvalidState in both
safe and non-safe mode, before any range check: the result is
InvalidState for every `t`, including times outside the (empty) range
where safe mode would otherwise raise OutOfRange. -/
theorem default_poly_eval_invalid_state (safe : Bool) (t : ℚ) (k : ℕ) :
    polyEval safe polyDefault t = .error .invalidState ∧
      polyDerivate safe polyDefault t k = .error .invalidState ∧
      computeDerivate safe polyDefault k = .error .invalidState := by
  refine ⟨?_, ?_, ?_⟩
  · simp [polyEval, polyDefault, csize]
  · simp [polyDerivate, polyDefault, csize]
  · rw [computeDerivate.eq_def]
    simp [polyDefault, csize]

/-! ### The zero curve reached past the degree -/

/-- The degree-0 curve with a single zero coefficient column over the
same interval and dimension as `p`. -/
def zeroPolyOf (p : Poly) : Poly :=
  ⟨p.dim_, [zeroVec p.dim_], 0, p.T_min_, p.T_max_⟩

theorem zeroPolyOf_wf (p : Poly) : PolyWF (zeroPolyOf p) := by
  constructor
  · intro c hcm
    simp only [zeroPolyOf, List.mem_singleton] at hcm
    rw [hcm, length_zeroVec]
    rfl
  · rfl

theorem derivPoly_of_single {p : Poly} (hwf : PolyWF p)
    (h1 : p.coefficients_.length = 1) : derivPoly p = zeroPolyOf p := by
  have hcols : derivCoeff p.coefficients_ = [zeroVec p.dim_] :=
    derivCoeff_single hwf.1 h1
  simp [derivPoly, zeroPolyOf, hcols]

theorem derivPoly_zeroPolyOf (p : Poly) :
    derivPoly (zeroPolyOf p) = zeroPolyOf p :=
  derivPoly_of_single (zeroPolyOf_wf p) rfl

theorem csize_zeroPolyOf {p : Poly} (hdim : 0 < p.dim_) :
    csize (zeroPolyOf p).coefficients_ ≠ 0 := by
  show csize [zeroVec p.dim_] ≠ 0
  simp [csize, zeroVec]
  omega

theorem computeDerivate_zeroPolyOf (safe : Bool) (p : Poly)
    (hdim : 0 < p.dim_) (hT : p.T_min_ ≤ p.T_max_) :
    ∀ m, computeDerivate safe (zeroPolyOf p) m = .ok (zeroPolyOf p) := by
  intro m
  induction m with
  | zero => exact computeDerivate_zero safe (csize_zeroPolyOf hdim)
  | succ m ih =>
    rw [computeDerivate_succ safe m (csize_zeroPolyOf hdim),
      mkPolyRaw_deriv safe (zeroPolyOf_wf p) (by simp [zeroPolyOf]) hT,
      derivPoly_zeroPolyOf]
    exact ih

theorem computeDerivate_past_degree (safe : Bool) :
    ∀ (k : ℕ) (p : Poly), PolyWF p → 0 < p.dim_ → p.coefficients_ ≠ [] →
      p.T_min_ ≤ p.T_max_ → p.degree_ < k →
      computeDerivate safe p k = .ok (zeroPolyOf p) := by
  intro k
  induction k with
  | zero => intro p _ _ _ _ hk; omega
  | succ k ih =>
    intro p hwf hdim hne hT hk
    rw [computeDerivate_succ safe k (csize_ne_zero hwf hdim hne),
      mkPolyRaw_deriv safe hwf hne hT]
    show computeDerivate safe (derivPoly p) k = _
    by_cases h1 : p.coefficients_.length = 1
    · rw [derivPoly_of_single hwf h1]
      cases k with
      | zero => exact computeDerivate_zero safe (csize_zeroPolyOf hdim)
      | succ k => exact computeDerivate_zeroPolyOf safe p hdim hT (k + 1)
    · have hlen2 : 2 ≤ p.coefficients_.length := by
        have : p.coefficients_.length ≠ 0 := by
          simpa [List.length_eq_zero] using hne
        omega
      have hdeg1 : 1 ≤ p.degree_ := by
        have := hwf.2
        omega
      have hdeg' : (derivPoly p).degree_ = p.degree_ - 1 := by
        simp only [derivPoly]
        rw [derivCoeff_multi_length h1]
        have := hwf.2
        omega
      have hres := ih (derivPoly p) (derivPoly_wf hwf hne) hdim
        (derivCoeff_ne_nil hne) hT (by rw [hdeg']; omega)
      rw [hres]
      rfl

/-- Evaluating the zero curve: Horner on a single zero column. -/
theorem polyEval_zeroPolyOf (safe : Bool) (p : Poly) (hdim : 0 < p.dim_)
    (t : ℚ) (hok : safe = true → p.T_min_ ≤ t ∧ t ≤ p.T_max_) :
    polyEval safe (zeroPolyOf p) t = .ok (zeroVec p.dim_) := by
  rw [polyEval, if_neg (csize_zeroPolyOf hdim), if_neg ?_]
  · rfl
  · rintro ⟨hout, hsafe⟩
    obtain ⟨h1, h2⟩ := hok hsafe
    have e1 : (zeroPolyOf p).T_min_ = p.T_min_ := rfl
    have e2 : (zeroPolyOf p).T_max_ = p.T_max_ := rfl
    rw [e1, e2] at hout
    rcases hout with h | h
    · linarith
    · linarith

/-- C8: for every non-empty well-formed polynomial of degree `d`,
`compute_derivate(k)` with `k > d` succeeds and yields the degree-0
curve with a single zero coefficient column over the same range, that
curve evaluates to the zero vector: at every `t` in non-safe mode and at
every in-range `s` in safe mode; and `compute_derivate(0)` returns a
copy whose fields all equal the original's. -/
theorem compute_derivate_past_degree_zero (safe : Bool) (p : Poly) (k : ℕ)
    (t s : ℚ) (hwf : PolyWF p) (hdim : 0 < p.dim_)
    (hne : p.coefficients_ ≠ []) (hT : p.T_min_ ≤ p.T_max_)
    (hk : p.degree_ < k) (hs1 : p.T_min_ ≤ s) (hs2 : s ≤ p.T_max_) :
    computeDerivate safe p k = .ok (zeroPolyOf p) ∧
      polyEval false (zeroPolyOf p) t = .ok (zeroVec p.dim_) ∧
      polyEval true (zeroPolyOf p) s = .ok (zeroVec p.dim_) ∧
      computeDerivate safe p 0 = .ok p :=
  ⟨computeDerivate_past_degree safe k p hwf hdim hne hT hk,
    polyEval_zeroPolyOf false p hdim t (by intro h; cases h),
    polyEval_zeroPolyOf true p hdim s (fun _ => ⟨hs1, hs2⟩),
    computeDerivate_zero safe (csize_ne_zero hwf hdim hne)⟩

theorem compute_derivate_past_degree_zero_witness :
    PolyWF ⟨1, [[1], [2]], 1, 0, 1⟩ ∧
      0 < (⟨1, [[1], [2]], 1, 0, 1⟩ : Poly).dim_ ∧
      (⟨1, [[1], [2]], 1, 0, 1⟩ : Poly).coefficients_ ≠ [] ∧
      (⟨1, [[1], [2]], 1, 0, 1⟩ : Poly).T_min_ ≤ (⟨1, [[1], [2]], 1, 0, 1⟩ : Poly).T_max_ ∧
      (⟨1, [[1], [2]], 1, 0, 1⟩ : Poly).degree_ < 2 ∧
      (computeDerivate true ⟨1, [[1], [2]], 1, 0, 1⟩ 2 =
          .ok (zeroPolyOf ⟨1, [[1], [2]], 1, 0, 1⟩) ∧
        polyEval false (zeroPolyOf ⟨1, [[1], [2]], 1, 0, 1⟩) 5 =
          .ok (zeroVec 1) ∧
        polyEval true (zeroPolyOf ⟨1, [[1], [2]], 1, 0, 1⟩) 1 =
          .ok (zeroVec 1) ∧
        computeDerivate true ⟨1, [[1], [2]], 1, 0, 1⟩ 0 =
          .ok ⟨1, [[1], [2]], 1, 0, 1⟩) :=
  ⟨by decide, by decide, by decide, by decide, by decide,
    compute_derivate_past_degree_zero true ⟨1, [[1], [2]], 1, 0, 1⟩ 2 5 1
      (by decide) (by decide) (by decide) (by decide) (by decide) (by decide)
      (by decide)⟩

/-! ### The C0 constructor -/

/-- The polynomial produced by the C0 boundary constructor when all its
checks pass: columns `[init, (end - init) / (max - min)]`, degree 1. -/
def c0Result (init fin : List ℚ) (tmin tmax : ℚ) : Poly :=
  ⟨init.length, [init, vdivS (vsub fin init) (tmax - tmin)], 1, tmin, tmax⟩

theorem polyC0_ok (safe : Bool) (init fin : List ℚ) (tmin tmax : ℚ)
    (hlen : init.length = fin.length) (hT : tmin ≤ tmax) :
    polyC0 safe init fin tmin tmax = .ok (c0Result init fin tmin tmax) := by
  rw [polyC0, if_neg (by omega)]
  have hcoeffs : initCoeffs init.length
      [init, vdivS (vsub fin init) (tmax - tmin)] =
      .ok [init, vdivS (vsub fin init) (tmax - tmin)] := by
    rw [initCoeffs, if_pos]
    simp [length_vdivS, length_vsub, hlen]
  rw [hcoeffs]
  have hchk : safeCheck safe
      ⟨init.length, [init, vdivS (vsub fin init) (tmax - tmin)], 1,
        tmin, tmax⟩ = .ok () := by
    rw [safeCheck]
    cases safe with
    | false => rfl
    | true =>
      simp only [if_true]
      rw [if_neg (by simpa using not_lt.mpr hT), if_neg (by simp)]
  show (Except.ok _).bind _ = _
  rw [Except.bind]
  simp only [hchk]
  rfl

theorem c0Result_wf {init fin : List ℚ} (hlen : init.length = fin.length)
    (tmin tmax : ℚ) : PolyWF (c0Result init fin tmin tmax) := by
  constructor
  · intro c hcm
    simp only [c0Result, List.mem_cons, List.mem_singleton,
      List.not_mem_nil, or_false] at hcm
    rcases hcm with rfl | rfl
    · rfl
    · show (vdivS (vsub fin init) (tmax - tmin)).length = init.length
      rw [length_vdivS, length_vsub, ← hlen, Nat.min_self]
  · rfl

theorem c0Result_eval_tmin (safe : Bool) {init fin : List ℚ}
    (hlen : init.length = fin.length) (hpos : 0 < init.length)
    {tmin tmax : ℚ} (hT : tmin ≤ tmax) :
    polyEval safe (c0Result init fin tmin tmax) tmin = .ok init := by
  have hwf := c0Result_wf hlen tmin tmax
  rw [polyEval, if_neg (csize_ne_zero hwf (by exact hpos) (by simp [c0Result])),
    if_neg ?_]
  · congr 1
    refine list_eq_of_entry _ _ ?_ ?_
    · rw [hornerEval_length hwf]; exact rfl
    intro j
    rw [hornerEval_entry hwf]
    show ∑ i ∈ Finset.range 2,
        (tmin - tmin) ^ i * entry (getCol [init, vdivS (vsub fin init) (tmax - tmin)] i) j = _
    rw [Finset.sum_range_succ, Finset.sum_range_one]
    simp [getCol]
  · rintro ⟨h | h, -⟩
    · rw [show (c0Result init fin tmin tmax).T_min_ = tmin from rfl] at h
      exact lt_irrefl _ h
    · rw [show (c0Result init fin tmin tmax).T_max_ = tmax from rfl] at h
      exact absurd hT (not_le.mpr h)

theorem c0Result_eval_tmax (safe : Bool) {init fin : List ℚ}
    (hlen : init.length = fin.length) (hpos : 0 < init.length)
    {tmin tmax : ℚ} (hlt : tmin < tmax) :
    polyEval safe (c0Result init fin tmin tmax) tmax = .ok fin := by
  have hwf := c0Result_wf hlen tmin tmax
  rw [polyEval, if_neg (csize_ne_zero hwf (by exact hpos) (by simp [c0Result])),
    if_neg ?_]
  · congr 1
    refine list_eq_of_entry _ _ ?_ ?_
    · rw [hornerEval_length hwf]
      show init.length = fin.length
      exact hlen
    intro j
    rw [hornerEval_entry hwf]
    show ∑ i ∈ Finset.range 2,
        (tmax - tmin) ^ i * entry (getCol [init, vdivS (vsub fin init) (tmax - tmin)] i) j = _
    rw [Finset.sum_range_succ, Finset.sum_range_one]
    have hT0 : tmax - tmin ≠ 0 := by linarith
    rw [show getCol [init, vdivS (vsub fin init) (tmax - tmin)] 0 = init from rfl,
      show getCol [init, vdivS (vsub fin init) (tmax - tmin)] 1 =
        vdivS (vsub fin init) (tmax - tmin) from rfl,
      entry_vdivS, entry_vsub _ _ hlen.symm]
    field_simp
  · rintro ⟨h | h, -⟩
    · rw [show (c0Result init fin tmin tmax).T_min_ = tmin from rfl] at h
      linarith
    · rw [show (c0Result init fin tmin tmax).T_max_ = tmax from rfl] at h
      exact lt_irrefl _ h

/-- C5 (amended: `init` of positive dimension): the C0 boundary
constructor with `init, end` of equal positive dimension and
`t_min < t_max` succeeds with the degree-1 curve whose coefficient
columns are `init` and `(end - init) / (t_max - t_min)`, and that curve
evaluates to `init` at `t_min` and to `end` at `t_max`. -/
theorem c0_boundary_fit (safe : Bool) (init fin : List ℚ) (tmin tmax : ℚ)
    (hlen : init.length = fin.length) (hpos : 0 < init.length)
    (hlt : tmin < tmax) :
    polyC0 safe init fin tmin tmax = .ok (c0Result init fin tmin tmax) ∧
      polyEval safe (c0Result init fin tmin tmax) tmin = .ok init ∧
      polyEval safe (c0Result init fin tmin tmax) tmax = .ok fin :=
  ⟨polyC0_ok safe init fin tmin tmax hlen (le_of_lt hlt),
    c0Result_eval_tmin safe hlen hpos (le_of_lt hlt),
    c0Result_eval_tmax safe hlen hpos hlt⟩

theorem c0_boundary_fit_witness :
    ([(0 : ℚ), 0] : List ℚ).length = ([(2 : ℚ), 4] : List ℚ).length ∧
      0 < ([(0 : ℚ), 0] : List ℚ).length ∧ (0 : ℚ) < 1 ∧
      (polyC0 true [0, 0] [2, 4] 0 1 = .ok (c0Result [0, 0] [2, 4] 0 1) ∧
        polyEval true (c0Result [0, 0] [2, 4] 0 1) 0 = .ok [0, 0] ∧
        polyEval true (c0Result [0, 0] [2, 4] 0 1) 1 = .ok [2, 4]) :=
  ⟨by decide, by decide, by norm_num,
    c0_boundary_fit true [0, 0] [2, 4] 0 1 (by decide) (by decide) (by norm_num)⟩

/-- C5, counterexample to the unamended claim: with `init = end = []`
(equal dimension 0) and `t_min = 0 < 1 = t_max` the constructor
succeeds, but evaluating the resulting curve at `t_min` raises
InvalidState (its coefficient matrix has size 0), so `evaluate(t_min)`
does not return `init`. -/
theorem c0_dim_zero_cex :
    (polyC0 true ([] : List ℚ) [] 0 1).bind (fun p => polyEval true p 0) =
        .error .invalidState ∧
      (polyC0 true ([] : List ℚ) [] 0 1).bind (fun p => polyEval true p 0) ≠
        .ok [] := by
  decide

/-- C10: the C0 constructor with `t_min == t_max` completes without
raising in both safe and non-safe mode — `safe_check` only rejects
`T_min_ > T_max_` — and the returned curve's second coefficient column
is literally `(end - init)` divided by the zero denominator
`t_max - t_min = t - t`, with no guard. -/
theorem c0_degenerate_interval_unchecked (safe : Bool) (init fin : List ℚ)
    (t : ℚ) (hlen : init.length = fin.length) :
    polyC0 safe init fin t t = .ok (c0Result init fin t t) :=
  polyC0_ok safe init fin t t hlen le_rfl

theorem c0_degenerate_interval_unchecked_witness :
    ([(1 : ℚ), 2] : List ℚ).length = ([(3 : ℚ), 5] : List ℚ).length ∧
      polyC0 true [1, 2] [3, 5] 4 4 = .ok (c0Result [1, 2] [3, 5] 4 4) :=
  ⟨by decide,
    c0_degenerate_interval_unchecked true [1, 2] [3, 5] 4 (by decide)⟩

/-! ### Constructor dimension validation -/

/-- C6 (amended): the boundary-fit constructors (C0, C1, C2) raise
InvalidArgument whenever any boundary input has a dimension different
from `init`'s; the raw-coefficient/container constructors perform no
such validation (a mismatched point hits an unchecked Eigen assertion
instead, see the counterexample). -/
theorem boundary_ctor_dim_mismatch (safe : Bool)
    (init d_init dd_init fin d_fin dd_fin : List ℚ) (tmin tmax : ℚ) :
    (init.length ≠ fin.length →
      polyC0 safe init fin tmin tmax = .error .invalidArgument) ∧
    (init.length ≠ fin.length ∨ init.length ≠ d_init.length ∨
        init.length ≠ d_fin.length →
      polyC1 safe init d_init fin d_fin tmin tmax = .error .invalidArgument) ∧
    (init.length ≠ fin.length ∨ init.length ≠ d_init.length ∨
        init.length ≠ d_fin.length ∨ init.length ≠ dd_init.length ∨
        init.length ≠ dd_fin.length →
      polyC2 safe init d_init dd_init fin d_fin dd_fin tmin tmax =
        .error .invalidArgument) := by
  refine ⟨?_, ?_, ?_⟩
  · intro h
    rw [polyC0, if_pos h]
  · intro h
    rw [polyC1]
    split_ifs with h1 h2 h3
    · rfl
    · rfl
    · rfl
    · tauto
  · intro h
    rw [polyC2]
    split_ifs with h1 h2 h3 h4 h5
    · rfl
    · rfl
    · rfl
    · rfl
    · rfl
    · tauto

theorem boundary_ctor_dim_mismatch_witness :
    polyC0 true [(1 : ℚ)] [2, 3] 0 1 = .error .invalidArgument ∧
      polyC1 true [(1 : ℚ)] [2, 3] [4] [5] 0 1 = .error .invalidArgument ∧
      polyC2 true [(1 : ℚ)] [2] [3] [4] [5] [6, 7] 0 1 =
        .error .invalidArgument :=
  ⟨(boundary_ctor_dim_mismatch true [1] [2, 3] [3] [2, 3] [5] [6] 0 1).1
      (by decide),
    (boundary_ctor_dim_mismatch true [1] [2, 3] [3] [4] [5] [6] 0 1).2.1
      (by decide),
    (boundary_ctor_dim_mismatch true [1] [2] [3] [4] [5] [6, 7] 0 1).2.2
      (by decide)⟩

/-- C6, counterexample to the unamended claim: the container constructor
given points `[[1], [2, 3]]` of mismatched dimension fails with an
unchecked Eigen assertion (`res.col(i) = *cit` on a wrong-sized point),
not with InvalidArgument — it performs no dimensionality validation. -/
theorem container_ctor_no_validation_cex :
    mkPolyPoints false [[(1 : ℚ)], [2, 3]] 0 1 = .error .eigenAssert ∧
      mkPolyPoints false [[(1 : ℚ)], [2, 3]] 0 1 ≠ .error .invalidArgument := by
  decide

/-! ### Claims about the affine-variable algebra -/

/-- C9: every free binary operator on `linear_variable` builds its
result through the mixed `(B, c)` constructor, so the result's `isZero`
flag is `false` for all operands — including zero-flagged ones — and the
left operand's zero fast path is never carried into the result.  (For
`+` and `-` the flag fact holds whenever the operation returns at all.) -/
theorem free_ops_never_zero_flag (w1 w2 : LinVar) (k : ℚ) :
    (lvAdd w1 w2).all (fun r => !r.zero) = true ∧
      (lvSub w1 w2).all (fun r => !r.zero) = true ∧
      (lvMulL k w1).zero = false ∧
      (lvMulR w1 k).zero = false ∧
      (lvDiv w1 k).zero = false := by
  refine ⟨?_, ?_, rfl, rfl, rfl⟩
  · rw [lvAdd, lvAddAssign]
    by_cases h2 : w2.zero = true
    · rw [if_pos h2]; rfl
    · rw [if_neg h2, if_neg (by simp [lvMixed])]
      cases hB : matAddO (lvMixed w1.B w1.c).B w2.B with
      | none => rfl
      | some B' =>
        cases hc : vecAddO (lvMixed w1.B w1.c).c w2.c with
        | none => simp [hB, hc]
        | some c' => simp [hB, hc, lvMixed]
  · rw [lvSub, lvSubAssign]
    by_cases h2 : w2.zero = true
    · rw [if_pos h2]; rfl
    · rw [if_neg h2, if_neg (by simp [lvMixed])]
      cases hB : matSubO (lvMixed w1.B w1.c).B w2.B with
      | none => rfl
      | some B' =>
        cases hc : vecSubO (lvMixed w1.B w1.c).c w2.c with
        | none => simp [hB, hc]
        | some c' => simp [hB, hc, lvMixed]

/-- C1 is a code bug; this theorem documents the failing behaviour.
With `x` the constant affine variable `c = [1]` (dimension 1):
`Zero() + x` hits an Eigen dimension-mismatch assert (its 0×0 `B`
accumulated into `x`'s 1×1 `B`), so no value approximately equal to `x`
is returned; `x - x` returns the genuinely zero value
`(B = [[0]], c = [0])`, yet `isApprox` against `Zero()` fails on the
same mismatched subtraction; and `Zero(1)` is not approximately equal
to the default zero element because its `B` is `Identity(1, 1)`, making
the difference's norm 1 ≥ the precision. -/
theorem lv_zero_algebra_bug :
    lvAdd (lvZero 0) (lvConst [1]) = none ∧
      (¬ ∃ r, lvAdd (lvZero 0) (lvConst [1]) = some r ∧
        lvIsApprox r (lvConst [1]) dummyPrecision) ∧
      lvSub (lvConst [1]) (lvConst [1]) = some ⟨[[0]], [0], false⟩ ∧
      ¬ lvIsApprox ⟨[[0]], [0], false⟩ (lvZero 0) dummyPrecision ∧
      ¬ lvIsApprox (lvZero 1) lvDefault dummyPrecision := by
  have h1 : lvAdd (lvZero 0) (lvConst [1]) = none := by decide
  have h3 : lvSub (lvConst [1]) (lvConst [1]) = some ⟨[[0]], [0], false⟩ := by
    norm_num [lvSub, lvSubAssign, lvConst, lvMixed, matSubO, vecSubO,
      matColsLV, matZeroM]
  have h4sub : lvSub ⟨[[0]], [0], false⟩ (lvZero 0) = none := by decide
  have h5sub : lvSub (lvZero 1) lvDefault = some ⟨[[1]], [0], false⟩ := by
    decide
  refine ⟨h1, ?_, h3, ?_, ?_⟩
  · rintro ⟨r, hr, -⟩
    rw [h1] at hr
    cases hr
  · rintro ⟨d, hd, -⟩
    rw [h4sub] at hd
    cases hd
  · rintro ⟨d, hd, hn⟩
    rw [h5sub] at hd
    cases hd
    have hnorm : lvNorm ⟨[[1]], [0], false⟩ = 1 := by
      rw [lvNorm]
      simp only [Bool.false_eq_true, if_false]
      have hm : matNormSq [[(1 : ℚ)]] = 1 := by
        norm_num [matNormSq, vecNormSq]
      have hv : vecNormSq [(0 : ℚ)] = 0 := by
        norm_num [vecNormSq]
      rw [hm, hv]
      push_cast
      rw [Real.sqrt_one, Real.sqrt_zero, add_zero]
    rw [hnorm, dummyPrecision] at hn
    norm_num at hn

end CurvesModel
